import Mathlib

/-!
Verification of the mailers-toolz SMTP checker: a shallow embedding of
backend/smtpChecker.js (credential parser, verification unit, pool
scheduler) and of the backend/server.js upload route, with theorems about
the spec's claims.

Conventions of the embedding:
* a JS string is a Lean `String`; `line.split(sep)` for a one-character
  separator is `splitChar sep` over the string's character list;
* the network call `transporter.verify()` is abstracted as its outcome,
  an `Except String Unit` (ok, or the caught error's message);
* the JS `accounts` array is consumed with `accounts.pop()` (from the
  end); the model stores that array reversed, in `JobState.stack`, so a
  pop is taking the head;
* the promise returned by `checkSMTPAccounts` is `JobState.outcome`:
  `none` while pending, `some` once resolved or rejected.
-/

namespace MailersToolz

/-- A credential record as parseFile builds it: the JS object with the
email and password fields. -/
structure Account where
  email : String
  password : String
  deriving DecidableEq

/-- JS String.prototype.split with a one-character separator, over the
character list: every occurrence of the separator splits, the empty
input yields one empty field, and a trailing separator yields a final
empty field. -/
def splitChar (sep : Char) : List Char → List (List Char)
  | [] => [[]]
  | c :: cs =>
    if c = sep then [] :: splitChar sep cs
    else
      match splitChar sep cs with
      | [] => [[c]]
      | r :: rs => (c :: r) :: rs

/-- One line of parseFile: line.split on the colon destructured as
[email, password], kept when both are truthy (non-empty). -/
def parseLine (line : String) : Option Account :=
  match splitChar ':' line.toList with
  | email :: password :: _ =>
    if email.isEmpty || password.isEmpty then none
    else some { email := String.mk email, password := String.mk password }
  | _ => none

/-- parseFile of backend/smtpChecker.js over the file's line sequence:
readline delivers the lines in order, each is parsed by parseLine, and
the rejected ones are dropped. -/
def parseFile (lines : List String) : List Account :=
  lines.filterMap parseLine

/-- The text of a line before its first occurrence of the separator. -/
def fieldBefore (sep : Char) (l : List Char) : List Char :=
  l.takeWhile (fun c => c != sep)

/-- The text after the first occurrence of the separator, when the line
has one. -/
def afterFirst (sep : Char) (l : List Char) : Option (List Char) :=
  match l.dropWhile (fun c => c != sep) with
  | [] => none
  | _ :: t => some t

/-- An independent statement of which lines parseFile keeps: the line has
a separator, and both the text before the first separator and the text
between the first and second separator are non-empty. -/
def acceptsLine (line : String) : Bool :=
  match afterFirst ':' line.toList with
  | none => false
  | some t => !(fieldBefore ':' line.toList).isEmpty && !(fieldBefore ':' t).isEmpty

/-- The record parseFile builds for an accepted line: the first and the
second field of the full split. -/
def toRecord (line : String) : Account :=
  { email := String.mk (fieldBefore ':' line.toList)
    password := String.mk (match afterFirst ':' line.toList with
      | none => []
      | some t => fieldBefore ':' t) }

/-- Written from the spec's words, for comparison with the code: split
the line on the FIRST separator only, the secret being the entire
remainder of the line, and accept when both parts are non-empty. -/
def specFirstSplit (line : String) : Option Account :=
  match afterFirst ':' line.toList with
  | none => none
  | some t =>
    if (fieldBefore ':' line.toList).isEmpty || t.isEmpty then none
    else some { email := String.mk (fieldBefore ':' line.toList), password := String.mk t }

theorem splitChar_ne_nil (sep : Char) (l : List Char) : splitChar sep l ≠ [] := by
  cases l with
  | nil => simp [splitChar]
  | cons c cs =>
    simp only [splitChar]
    split
    · simp
    · cases h : splitChar sep cs <;> simp

/-- The head of the split is the text before the first separator, and the
remaining fields are the split of the text after it. -/
theorem splitChar_eq_fields (sep : Char) (l : List Char) :
    splitChar sep l =
      fieldBefore sep l ::
        (match afterFirst sep l with
          | none => []
          | some t => splitChar sep t) := by
  induction l with
  | nil => simp [splitChar, fieldBefore, afterFirst]
  | cons c cs ih =>
    by_cases hc : c = sep
    · subst hc
      simp [splitChar, fieldBefore, afterFirst, List.takeWhile, List.dropWhile]
    · have hb : (c != sep) = true := by simpa using hc
      rw [fieldBefore, afterFirst] at ih ⊢
      simp only [splitChar, if_neg hc, List.takeWhile, List.dropWhile, hb, ih]

/-- parseLine in terms of the first and second field of the split. -/
theorem parseLine_eq (line : String) :
    parseLine line = if acceptsLine line then some (toRecord line) else none := by
  rw [parseLine, acceptsLine, toRecord, splitChar_eq_fields]
  cases h : afterFirst ':' line.toList with
  | none => simp
  | some t =>
    dsimp only []
    rw [splitChar_eq_fields ':' t]
    by_cases h1 : (fieldBefore ':' line.toList).isEmpty <;>
      by_cases h2 : (fieldBefore ':' t).isEmpty <;>
        simp [h1, h2]

/-- Claim C6 (amended): parse returns exactly the records of those lines
whose colon-split has a non-empty first and second field, in the lines'
original order and nothing else; every other line is silently dropped,
and an empty source yields an empty sequence. -/
theorem parseFile_exactly_accepted (lines : List String) :
    parseFile lines = (lines.filter acceptsLine).map toRecord := by
  induction lines with
  | nil => rfl
  | cons l ls ih =>
    rw [parseFile, List.filterMap_cons, List.filter_cons]
    by_cases h : acceptsLine l <;> simp [parseLine_eq, h, parseFile] at ih ⊢ <;> exact ih

/-- Claim C6, counterexample to the claim as stated: the line a::b splits
at its first separator into two non-empty fields (a and :b), yet
parseFile drops it, because the second field of the full split is empty. -/
theorem parseFile_first_split_counterexample :
    specFirstSplit "a::b" = some { email := "a", password := ":b" } ∧
      parseFile ["a::b"] = [] := by
  exact ⟨by decide, by decide⟩

/-- Claim C7, counterexample to the claim as stated: on a:b:c the claimed
secret is the entire remainder b:c after the first separator, but
parseFile keeps only the second field b of the full split. -/
theorem parseLine_multi_sep_counterexample :
    specFirstSplit "a:b:c" = some { email := "a", password := "b:c" } ∧
      parseLine "a:b:c" = some { email := "a", password := "b" } ∧
      ({ email := "a", password := "b" } : Account) ≠ { email := "a", password := "b:c" } := by
  exact ⟨by decide, by decide, by decide⟩

/-- Claim C7 (amended): for every accepted line the identifier is the
text before the first separator, and the secret is the text between the
first and the second separator (the line's remainder past a second
separator is dropped). -/
theorem parseLine_splits_at_separators (line : String) (acct : Account)
    (h : parseLine line = some acct) :
    acct.email = String.mk (fieldBefore ':' line.toList) ∧
      ∃ t, afterFirst ':' line.toList = some t ∧
        acct.password = String.mk (fieldBefore ':' t) := by
  rw [parseLine_eq] at h
  by_cases ha : acceptsLine line
  · rw [if_pos ha] at h
    have hrec : acct = toRecord line := by injection h.symm
    cases haf : afterFirst ':' line.toList with
    | none => rw [acceptsLine, haf] at ha; exact absurd ha (by simp)
    | some t =>
      subst hrec
      rw [toRecord, haf]
      exact ⟨rfl, t, rfl, rfl⟩
  · rw [if_neg ha] at h
    exact absurd h (by simp)

/-- Claim C7, witness: the amended statement at the concrete line a:b:c. -/
theorem parseLine_splits_at_separators_witness :
    ({ email := "a", password := "b" } : Account).email =
        String.mk (fieldBefore ':' ("a:b:c" : String).toList) ∧
      ∃ t, afterFirst ':' ("a:b:c" : String).toList = some t ∧
        ({ email := "a", password := "b" } : Account).password =
          String.mk (fieldBefore ':' t) :=
  parseLine_splits_at_separators "a:b:c" { email := "a", password := "b" } (by decide)

/-- The two terminal classifications of one verification. -/
inductive Status where
  | working
  | dead
  deriving DecidableEq

/-- The object a verification unit reports: email, status, and the error
message captured on failure (absent on success). -/
structure VerificationResult where
  email : String
  status : Status
  error : Option String
  deriving DecidableEq

/-- testSMTPConnection of backend/smtpChecker.js: transporter.verify()
is abstracted as its outcome; the try branch returns a working result,
the catch branch a dead result carrying the error's message, and no
exception escapes in either case. -/
def testSMTPConnection (email password : String)
    (verifyOutcome : Except String Unit) : VerificationResult :=
  match verifyOutcome with
  | Except.ok _ => { email := email, status := Status.working, error := none }
  | Except.error msg => { email := email, status := Status.dead, error := some msg }

/-- The promise of checkSMTPAccounts once settled: resolved with the
collected results, or rejected with a single error. -/
inductive RunResult where
  | success (results : List VerificationResult)
  | failure (message : String)
  deriving DecidableEq

/-- The state of one checkSMTPAccounts job.  stack is the JS accounts
array reversed (its pop is taking the head); inflight holds the accounts
whose workers are running; dispatched is the bookkeeping trace of the
dispatch order; outcome is the returned promise, none while pending. -/
structure JobState where
  stack : List Account
  inflight : List Account
  results : List VerificationResult
  dispatched : List Account
  outcome : Option RunResult
  deriving DecidableEq

/-- The initial worker loop of checkSMTPAccounts: for i from 0 while
i is below Math.min(concurrency, accounts.length), pop and dispatch.
The bound is re-evaluated against the shrunken array on every
iteration, exactly as in the source.  Returns the remaining stack and
the dispatched accounts in order. -/
def initialDispatch (concurrency : Nat) : Nat → List Account → List Account →
    List Account × List Account
  | _, [], started => ([], started)
  | i, a :: rest, started =>
    if i < min concurrency (rest.length + 1) then
      initialDispatch concurrency (i + 1) rest (started ++ [a])
    else (a :: rest, started)

/-- checkSMTPAccounts just after the initial loop, before any worker
event has been handled. -/
def initState (accounts : List Account) (concurrency : Nat) : JobState :=
  { stack := (initialDispatch concurrency 0 accounts.reverse []).1
    inflight := (initialDispatch concurrency 0 accounts.reverse []).2
    results := []
    dispatched := (initialDispatch concurrency 0 accounts.reverse []).2
    outcome := none }

/-- The result one worker reports for its account, given the oracle for
the network outcome of its verification. -/
def verifyAccount (oc : Account → Except String Unit) (a : Account) :
    VerificationResult :=
  testSMTPConnection a.email a.password (oc a)

/-- The worker message handler: push the result, remove the worker,
then replenish from the backlog if it is non-empty, else resolve when
no worker remains. -/
def onWorkerMessage (oc : Account → Except String Unit) (s : JobState)
    (j : Fin s.inflight.length) : JobState :=
  let res := verifyAccount oc (s.inflight.get j)
  let inflight1 := s.inflight.eraseIdx j.val
  let results1 := s.results ++ [res]
  match s.stack with
  | b :: rest =>
    { stack := rest, inflight := inflight1 ++ [b], results := results1
      dispatched := s.dispatched ++ [b], outcome := none }
  | [] =>
    if inflight1 = [] then
      { stack := [], inflight := [], results := results1
        dispatched := s.dispatched, outcome := some (RunResult.success results1) }
    else
      { stack := [], inflight := inflight1, results := results1
        dispatched := s.dispatched, outcome := none }

/-- The events a pending job can take: a worker delivers its message, or
a worker suffers an infrastructure fault (error event or nonzero exit)
and the promise is rejected.  With allowFault false only fault-free
runs are generated.  Events on a settled promise change nothing
observable and are not modelled. -/
inductive Step (oc : Account → Except String Unit) (allowFault : Bool) :
    JobState → JobState → Prop
  | message (s : JobState) (j : Fin s.inflight.length) (h : s.outcome = none) :
      Step oc allowFault s (onWorkerMessage oc s j)
  | fault (s : JobState) (msg : String) (ha : allowFault = true)
      (h : s.outcome = none) (hw : s.inflight ≠ []) :
      Step oc allowFault s { s with outcome := some (RunResult.failure msg) }

/-- The job over this state settles successfully with m results on some
fault-free run. -/
def ResolvesWith (s : JobState) (m : Nat) : Prop :=
  ∃ oc s2 r, Relation.ReflTransGen (Step oc false) s s2 ∧
    s2.outcome = some (RunResult.success r) ∧ r.length = m

theorem step_inflight_ne_nil {oc : Account → Except String Unit} {af : Bool}
    {s s2 : JobState} (h : Step oc af s s2) : s.inflight ≠ [] := by
  cases h with
  | message j _ =>
    intro hnil
    have hj := j.isLt
    have hlen : s.inflight.length = 0 := by rw [hnil]; rfl
    omega
  | fault _ _ _ hw => exact hw

theorem step_outcome_none {oc : Account → Except String Unit} {af : Bool}
    {s s2 : JobState} (h : Step oc af s s2) : s.outcome = none := by
  cases h with
  | message _ h => exact h
  | fault _ _ h _ => exact h

theorem reach_of_stuck {oc : Account → Except String Unit} {af : Bool}
    {s s2 : JobState} (hin : s.inflight = [])
    (h : Relation.ReflTransGen (Step oc af) s s2) : s2 = s := by
  induction h with
  | refl => rfl
  | tail hab hbc ih =>
    subst ih
    exact absurd hin (step_inflight_ne_nil hbc)

theorem onWorkerMessage_cons {oc : Account → Except String Unit} {s : JobState}
    {j : Fin s.inflight.length} {b : Account} {rest : List Account}
    (hs : s.stack = b :: rest) :
    onWorkerMessage oc s j =
      { stack := rest
        inflight := s.inflight.eraseIdx j.val ++ [b]
        results := s.results ++ [verifyAccount oc (s.inflight.get j)]
        dispatched := s.dispatched ++ [b]
        outcome := none } := by
  unfold onWorkerMessage
  rw [hs]

theorem onWorkerMessage_nil {oc : Account → Except String Unit} {s : JobState}
    {j : Fin s.inflight.length} (hs : s.stack = []) :
    onWorkerMessage oc s j =
      if s.inflight.eraseIdx j.val = [] then
        { stack := [], inflight := []
          results := s.results ++ [verifyAccount oc (s.inflight.get j)]
          dispatched := s.dispatched
          outcome := some (RunResult.success
            (s.results ++ [verifyAccount oc (s.inflight.get j)])) }
      else
        { stack := [], inflight := s.inflight.eraseIdx j.val
          results := s.results ++ [verifyAccount oc (s.inflight.get j)]
          dispatched := s.dispatched, outcome := none } := by
  unfold onWorkerMessage
  rw [hs]

/-- Removing the i-th element and putting it back in front is a
permutation. -/
theorem perm_get_cons_eraseIdx {α : Type} :
    ∀ (l : List α) (i : Nat) (h : i < l.length),
      List.Perm l (l.get ⟨i, h⟩ :: l.eraseIdx i) := by
  intro l
  induction l with
  | nil => intro i h; simp at h
  | cons a t ih =>
    intro i h
    cases i with
    | zero => simp [List.eraseIdx]
    | succ i =>
      have h2 : i < t.length := by simpa using h
      have hperm := (ih i h2).cons a
      have hswap := List.Perm.swap (t.get ⟨i, h2⟩) a (t.eraseIdx i)
      exact hperm.trans hswap

/-- The initial loop pops some prefix of the stack, appending it, in
order, to the already started workers. -/
theorem initialDispatch_eq (c : Nat) :
    ∀ (st : List Account) (i : Nat) (started : List Account),
      ∃ k, k ≤ st.length ∧
        initialDispatch c i st started = (st.drop k, started ++ st.take k) := by
  intro st
  induction st with
  | nil =>
    intro i started
    exact ⟨0, by simp, by simp [initialDispatch]⟩
  | cons a rest ih =>
    intro i started
    by_cases h : i < min c (rest.length + 1)
    · obtain ⟨k, hk, he⟩ := ih (i + 1) (started ++ [a])
      refine ⟨k + 1, by simpa using hk, ?_⟩
      rw [initialDispatch, if_pos h, he]
      simp
    · exact ⟨0, by simp, by rw [initialDispatch, if_neg h]; simp⟩

/-- What every state reachable by a run over accounts preserves: the
dispatch trace followed by the remaining stack is the reversed input;
collected results plus the pending verifications form, as a multiset,
the verification of every input record; a resolved outcome carries
exactly the collected results with nothing left to do. -/
def JobInv (oc : Account → Except String Unit) (accounts : List Account)
    (s : JobState) : Prop :=
  s.dispatched ++ s.stack = accounts.reverse ∧
  List.Perm
    (s.results ++ s.inflight.map (verifyAccount oc) ++ s.stack.map (verifyAccount oc))
    (accounts.map (verifyAccount oc)) ∧
  ∀ r, s.outcome = some (RunResult.success r) →
    r = s.results ∧ s.stack = [] ∧ s.inflight = []

theorem jobInv_init (oc : Account → Except String Unit)
    (accounts : List Account) (c : Nat) :
    JobInv oc accounts (initState accounts c) := by
  obtain ⟨k, hk, he⟩ := initialDispatch_eq c accounts.reverse 0 []
  refine ⟨?_, ?_, ?_⟩
  · show (initialDispatch c 0 accounts.reverse []).2 ++
      (initialDispatch c 0 accounts.reverse []).1 = accounts.reverse
    rw [he]
    simp [List.take_append_drop]
  · show List.Perm ([] ++
        (initialDispatch c 0 accounts.reverse []).2.map (verifyAccount oc) ++
        (initialDispatch c 0 accounts.reverse []).1.map (verifyAccount oc))
      (accounts.map (verifyAccount oc))
    rw [he]
    simp only [List.nil_append, List.map_take, List.map_drop]
    rw [List.take_append_drop]
    rw [List.map_reverse]
    exact (List.reverse_perm (accounts.map (verifyAccount oc)))
  · intro r hr
    exact absurd hr (by simp [initState])

theorem jobInv_step {oc : Account → Except String Unit} {af : Bool}
    {accounts : List Account} {s s2 : JobState} (hinv : JobInv oc accounts s)
    (hstep : Step oc af s s2) : JobInv oc accounts s2 := by
  obtain ⟨hd, hp, _⟩ := hinv
  cases hstep with
  | message j hout =>
    have hpj := perm_get_cons_eraseIdx s.inflight j.val j.isLt
    have hmap : List.Perm (s.inflight.map (verifyAccount oc))
        (verifyAccount oc (s.inflight.get j) ::
          (s.inflight.eraseIdx j.val).map (verifyAccount oc)) := by
      have := hpj.map (verifyAccount oc)
      simpa using this
    cases hstack : s.stack with
    | cons b rest =>
      rw [onWorkerMessage_cons hstack]
      rw [hstack] at hd hp
      refine ⟨by simpa using hd, ?_, by intro r hr; simp at hr⟩
      simp only [List.map_append, List.map_cons, List.map_nil, List.append_assoc,
        List.cons_append, List.nil_append, List.singleton_append] at hp ⊢
      refine List.Perm.trans ?_ hp
      refine List.Perm.append_left s.results ?_
      have h1 := (hmap.symm.append_right
        (verifyAccount oc b :: rest.map (verifyAccount oc)))
      simpa using h1
    | nil =>
      rw [onWorkerMessage_nil hstack]
      rw [hstack] at hd hp
      by_cases h1 : s.inflight.eraseIdx j.val = []
      · rw [if_pos h1]
        rw [h1] at hmap
        refine ⟨by simpa using hd, ?_, ?_⟩
        · simp only [List.map_nil, List.append_nil, List.map_cons] at hp hmap ⊢
          refine List.Perm.trans ?_ hp
          exact List.Perm.append_left s.results hmap.symm
        · intro r hr
          simp at hr
          exact ⟨hr.symm, rfl, rfl⟩
      · rw [if_neg h1]
        refine ⟨by simpa using hd, ?_, by intro r hr; simp at hr⟩
        simp only [List.map_nil, List.append_nil, List.append_assoc,
          List.singleton_append] at hp ⊢
        refine List.Perm.trans ?_ hp
        exact List.Perm.append_left s.results hmap.symm
  | fault msg ha hout hw =>
    refine ⟨hd, hp, ?_⟩
    intro r hr
    simp at hr

theorem jobInv_reach {oc : Account → Except String Unit} {af : Bool}
    {accounts : List Account} {s s2 : JobState} (hinv : JobInv oc accounts s)
    (h : Relation.ReflTransGen (Step oc af) s s2) : JobInv oc accounts s2 := by
  induction h with
  | refl => exact hinv
  | tail hab hbc ih => exact jobInv_step ih hbc

theorem verifyAccount_email (oc : Account → Except String Unit) (a : Account) :
    (verifyAccount oc a).email = a.email := by
  unfold verifyAccount testSMTPConnection
  cases oc a <;> rfl

/-- Every successful outcome of a run over accounts carries one result
per record, matched by identifier. -/
theorem reach_success_results {oc : Account → Except String Unit} {af : Bool}
    {accounts : List Account} {c : Nat} {s : JobState} {r : List VerificationResult}
    (hre : Relation.ReflTransGen (Step oc af) (initState accounts c) s)
    (hout : s.outcome = some (RunResult.success r)) :
    r.length = accounts.length ∧
      List.Perm (r.map VerificationResult.email) (accounts.map Account.email) := by
  obtain ⟨hd, hp, ho⟩ := jobInv_reach (jobInv_init oc accounts c) hre
  obtain ⟨hr, hs, hi⟩ := ho r hout
  subst hr
  rw [hs, hi] at hp
  simp only [List.map_nil, List.append_nil] at hp
  constructor
  · simpa using hp.length_eq
  · have h2 := hp.map VerificationResult.email
    rw [List.map_map] at h2
    refine h2.trans ?_
    rw [show accounts.map (VerificationResult.email ∘ verifyAccount oc) =
      accounts.map Account.email from List.map_congr_left
        (fun a _ => verifyAccount_email oc a)]

/-- From any pending state with a worker in flight, some fault-free run
reaches a successful resolution (measure: twice the backlog plus the
workers in flight). -/
theorem run_completes {oc : Account → Except String Unit} :
    ∀ (n : Nat) (s : JobState), 2 * s.stack.length + s.inflight.length ≤ n →
      s.outcome = none → s.inflight ≠ [] →
      ∃ s2 r, Relation.ReflTransGen (Step oc false) s s2 ∧
        s2.outcome = some (RunResult.success r) := by
  intro n
  induction n with
  | zero =>
    intro s hm _ hi
    have := List.length_pos.mpr hi
    omega
  | succ n ih =>
    intro s hm hout hi
    have hlen : 0 < s.inflight.length := List.length_pos.mpr hi
    have hstep : Step oc false s (onWorkerMessage oc s ⟨0, hlen⟩) :=
      Step.message s ⟨0, hlen⟩ hout
    have herase : (s.inflight.eraseIdx 0).length + 1 = s.inflight.length := by
      have := (perm_get_cons_eraseIdx s.inflight 0 hlen).length_eq
      simpa using this.symm
    cases hstack : s.stack with
    | cons b rest =>
      have he := @onWorkerMessage_cons oc s ⟨0, hlen⟩ b rest hstack
      have hm2 : 2 * (onWorkerMessage oc s ⟨0, hlen⟩).stack.length +
          (onWorkerMessage oc s ⟨0, hlen⟩).inflight.length ≤ n := by
        rw [he]
        simp only [List.length_append, List.length_cons, List.length_nil]
        rw [hstack] at hm
        simp only [List.length_cons] at hm
        omega
      obtain ⟨s2, r, hre, ho⟩ := ih (onWorkerMessage oc s ⟨0, hlen⟩) hm2
        (by rw [he]) (by rw [he]; simp)
      exact ⟨s2, r, Relation.ReflTransGen.head hstep hre, ho⟩
    | nil =>
      by_cases h1 : s.inflight.eraseIdx 0 = []
      · refine ⟨onWorkerMessage oc s ⟨0, hlen⟩,
          s.results ++ [verifyAccount oc (s.inflight.get ⟨0, hlen⟩)],
          Relation.ReflTransGen.single hstep, ?_⟩
        rw [onWorkerMessage_nil hstack, if_pos h1]
      · have he := @onWorkerMessage_nil oc s ⟨0, hlen⟩ hstack
        rw [if_neg h1] at he
        have hm2 : 2 * (onWorkerMessage oc s ⟨0, hlen⟩).stack.length +
            (onWorkerMessage oc s ⟨0, hlen⟩).inflight.length ≤ n := by
          rw [he]
          simp only [List.length_nil]
          rw [hstack] at hm
          simp only [List.length_nil] at hm
          omega
        obtain ⟨s2, r, hre, ho⟩ := ih (onWorkerMessage oc s ⟨0, hlen⟩) hm2
          (by rw [he]) (by rw [he]; simpa using h1)
        exact ⟨s2, r, Relation.ReflTransGen.head hstep hre, ho⟩

theorem init_inflight_ne_nil {accounts : List Account} {c : Nat} (hc : 0 < c)
    (hne : accounts ≠ []) : (initState accounts c).inflight ≠ [] := by
  obtain ⟨a, rest, hrev⟩ : ∃ a rest, accounts.reverse = a :: rest := by
    cases hrevc : accounts.reverse with
    | nil => exact absurd (by simpa using congrArg List.reverse hrevc) hne
    | cons a rest => exact ⟨a, rest, rfl⟩
  show (initialDispatch c 0 accounts.reverse []).2 ≠ []
  rw [hrev]
  have hcond : 0 < min c (rest.length + 1) := by omega
  rw [initialDispatch, if_pos hcond]
  obtain ⟨k, hk, he⟩ := initialDispatch_eq c rest (0 + 1) ([] ++ [a])
  rw [he]
  simp

/-- A fault-free event leaves a pending state only with a worker still
in flight: the message handler either replenishes or resolves. -/
theorem step_pending_inflight {oc : Account → Except String Unit}
    {s s2 : JobState} (hstep : Step oc false s s2)
    (hout : s2.outcome = none) : s2.inflight ≠ [] := by
  cases hstep with
  | message j h =>
    cases hstack : s.stack with
    | cons b rest =>
      rw [onWorkerMessage_cons hstack]
      simp
    | nil =>
      rw [onWorkerMessage_nil hstack] at hout ⊢
      by_cases h1 : s.inflight.eraseIdx j.val = []
      · rw [if_pos h1] at hout
        simp at hout
      · rw [if_neg h1]
        simpa using h1
  | fault msg ha h hw => exact absurd ha (by simp)

/-- On a fault-free run from a non-empty record list, a pending state
always has a worker in flight. -/
theorem reach_pending_inflight {oc : Account → Except String Unit}
    {accounts : List Account} {c : Nat} {s : JobState} (hc : 0 < c)
    (hne : accounts ≠ [])
    (hre : Relation.ReflTransGen (Step oc false) (initState accounts c) s)
    (hout : s.outcome = none) : s.inflight ≠ [] := by
  revert hout
  induction hre with
  | refl => intro _; exact init_inflight_ne_nil hc hne
  | tail hab hbc ih => intro hout; exact step_pending_inflight hbc hout

/-- Claim C1 (amended to at least one record): for every non-empty list
of accepted records and every concurrency bound, every fault-free run
reaches resolution from each of its pending states, and every resolved
run yields exactly one VerificationResult per record, matched by
identifier, for every value of the bound.  (With zero records the
promise never settles, see the counterexample.) -/
theorem run_resolves_all_records (accounts : List Account) (c : Nat)
    (oc : Account → Except String Unit) (hc : 0 < c) (hne : accounts ≠ []) :
    (∀ s, Relation.ReflTransGen (Step oc false) (initState accounts c) s →
        s.outcome = none →
        ∃ s2 r, Relation.ReflTransGen (Step oc false) s s2 ∧
          s2.outcome = some (RunResult.success r)) ∧
      ∀ s r, Relation.ReflTransGen (Step oc false) (initState accounts c) s →
        s.outcome = some (RunResult.success r) →
        r.length = accounts.length ∧
          List.Perm (r.map VerificationResult.email) (accounts.map Account.email) := by
  constructor
  · intro s hre hout
    exact run_completes (2 * s.stack.length + s.inflight.length) s le_rfl hout
      (reach_pending_inflight hc hne hre hout)
  · intro s r h1 h2
    exact reach_success_results h1 h2

/-- Claim C1, witness: one record, concurrency one, every verification
succeeding. -/
theorem run_resolves_all_records_witness :
    (∀ s, Relation.ReflTransGen (Step (fun _ => Except.ok ()) false)
        (initState [{ email := "a@x.com", password := "p" }] 1) s →
        s.outcome = none →
        ∃ s2 r, Relation.ReflTransGen (Step (fun _ => Except.ok ()) false) s s2 ∧
          s2.outcome = some (RunResult.success r)) ∧
      ∀ s r, Relation.ReflTransGen (Step (fun _ => Except.ok ()) false)
          (initState [{ email := "a@x.com", password := "p" }] 1) s →
        s.outcome = some (RunResult.success r) →
        r.length = ([{ email := "a@x.com", password := "p" }] : List Account).length ∧
          List.Perm (r.map VerificationResult.email)
            (([{ email := "a@x.com", password := "p" }] : List Account).map Account.email) :=
  run_resolves_all_records [{ email := "a@x.com", password := "p" }] 1
    (fun _ => Except.ok ()) (by decide) (by decide)

/-- Claim C1, counterexample to the claim as stated: over the empty
record list (M = 0) no fault-free run resolves at all — the initial
loop starts no worker and resolve is only ever called from a worker's
message handler — where the claim asserts resolution with 0 results. -/
theorem run_empty_never_resolves :
    ¬ ResolvesWith (initState [] 5) 0 ∧ (initState [] 5).inflight = [] := by
  constructor
  · rintro ⟨oc, s2, r, hre, hout, _⟩
    rw [reach_of_stuck rfl hre] at hout
    exact Option.noConfusion hout
  · rfl

/-- Claim C2 (code bug): with 2 accepted records and concurrency 2, the
initial loop starts only 1 worker, not min(2, 2) = 2 — the loop bound
Math.min(concurrency, accounts.length) is re-evaluated while pop()
shrinks the array, so the initial dispatch launches
min(N, ceil(M / 2)) units. -/
theorem initial_dispatch_undercounts :
    (initState [{ email := "a@x.com", password := "p1" },
      { email := "b@x.com", password := "p2" }] 2).inflight.length = 1 ∧
      (initState [{ email := "a@x.com", password := "p1" },
        { email := "b@x.com", password := "p2" }] 2).inflight.length ≠ min 2 2 := by
  exact ⟨by decide, by decide⟩

/-- Claim C3 (code bug): over the empty record list the promise never
settles — every reachable state is still pending — although no unit is
ever dispatched; the claim (and the spec) say the Job completes
immediately with an empty result set. -/
theorem empty_job_never_settles (c : Nat) (oc : Account → Except String Unit)
    (af : Bool) (s : JobState)
    (h : Relation.ReflTransGen (Step oc af) (initState [] c) s) :
    s.outcome = none ∧ s.dispatched = [] := by
  rw [reach_of_stuck rfl h]
  exact ⟨rfl, rfl⟩

/-- Claim C3, witness: the pending initial state itself, reached by the
empty run. -/
theorem empty_job_never_settles_witness :
    (initState [] 1).outcome = none ∧ (initState [] 1).dispatched = [] :=
  empty_job_never_settles 1 (fun _ => Except.ok ()) false (initState [] 1)
    Relation.ReflTransGen.refl

/-- Claim C4: from every pending state with a worker in flight — in
particular one that has already collected working or dead results — an
infrastructure fault rejects the promise with that single error; the
rejected outcome carries no results, and no further event changes a
settled promise. -/
theorem fault_aborts_job (oc : Account → Except String Unit) (s : JobState)
    (msg : String) (hout : s.outcome = none) (hw : s.inflight ≠ []) :
    Step oc true s { s with outcome := some (RunResult.failure msg) } ∧
      (∀ r, RunResult.failure msg ≠ RunResult.success r) ∧
      ∀ s2, ¬ Step oc true { s with outcome := some (RunResult.failure msg) } s2 := by
  refine ⟨Step.fault s msg rfl hout hw, ?_, ?_⟩
  · intro r h
    exact RunResult.noConfusion h
  · intro s2 h
    have h2 := step_outcome_none h
    simp at h2

/-- A pending state with one collected working result and one worker
still in flight. -/
def busyState : JobState :=
  { stack := []
    inflight := [{ email := "b@x.com", password := "q" }]
    results := [{ email := "a@x.com", status := Status.working, error := none }]
    dispatched := [{ email := "b@x.com", password := "q" },
      { email := "a@x.com", password := "p" }]
    outcome := none }

/-- Claim C4, witness: a fault at a state that already holds a working
classification. -/
theorem fault_aborts_job_witness :
    Step (fun _ => Except.ok ()) true busyState
        { busyState with outcome := some (RunResult.failure "worker crashed") } ∧
      (∀ r, RunResult.failure "worker crashed" ≠ RunResult.success r) ∧
      ∀ s2, ¬ Step (fun _ => Except.ok ()) true
        { busyState with outcome := some (RunResult.failure "worker crashed") } s2 :=
  fault_aborts_job (fun _ => Except.ok ()) busyState "worker crashed" rfl (by decide)

/-- Claim C9: in every run that resolves, the dispatch trace is exactly
the reversed input — the initial batch and every replacement pop the
record at the end of the remaining backlog — so the first input record
is the last one dispatched. -/
theorem dispatch_order_is_reversed (accounts : List Account) (c : Nat)
    (oc : Account → Except String Unit) (af : Bool) (s : JobState)
    (r : List VerificationResult) (hne : accounts ≠ [])
    (hre : Relation.ReflTransGen (Step oc af) (initState accounts c) s)
    (hout : s.outcome = some (RunResult.success r)) :
    s.dispatched = accounts.reverse ∧ s.dispatched.getLast? = accounts.head? := by
  obtain ⟨hd, _, ho⟩ := jobInv_reach (jobInv_init oc accounts c) hre
  obtain ⟨_, hs, _⟩ := ho r hout
  rw [hs, List.append_nil] at hd
  refine ⟨hd, ?_⟩
  rw [hd]
  exact List.getLast?_reverse accounts

/-- The one-record job used as a concrete run. -/
def oneAccount : Account := { email := "a@x.com", password := "p" }

/-- The single state the one-record job reaches after its only worker
reports, resolving the promise. -/
def oneFinal : JobState :=
  onWorkerMessage (fun _ => Except.ok ()) (initState [oneAccount] 1)
    ⟨0, by decide⟩

/-- Claim C9, witness: the one-record run, fully executed. -/
theorem dispatch_order_is_reversed_witness :
    oneFinal.dispatched = [oneAccount].reverse ∧
      oneFinal.dispatched.getLast? = [oneAccount].head? :=
  dispatch_order_is_reversed [oneAccount] 1 (fun _ => Except.ok ()) false oneFinal
    [{ email := "a@x.com", status := Status.working, error := none }]
    (by decide)
    (Relation.ReflTransGen.single
      (Step.message (initState [oneAccount] 1) ⟨0, by decide⟩ rfl))
    (by decide)

/-- Claim C5: the verification unit resolves normally with a working
result on a successful handshake and with a dead result carrying the
captured diagnostic message on any protocol-level failure; being a
total function of the outcome, it never escalates a per-credential
failure. -/
theorem testSMTPConnection_classifies (email password : String) :
    testSMTPConnection email password (Except.ok ()) =
        { email := email, status := Status.working, error := none } ∧
      ∀ msg, testSMTPConnection email password (Except.error msg) =
        { email := email, status := Status.dead, error := some msg } :=
  ⟨rfl, fun _ => rfl⟩

/-- JS String.prototype.includes for the validation marker: the pattern
occurs as a contiguous substring. -/
def containsSub (pat : List Char) : List Char → Bool
  | [] => pat.isEmpty
  | c :: rest => pat.isPrefixOf (c :: rest) || containsSub pat rest

/-- The /upload route's per-line test: line.includes of the gmail
marker. -/
def lineValid (line : String) : Bool :=
  containsSub ("@gmail.com:").toList line.toList

/-- The forEach over the lines, collecting the 1-based index of every
invalid line, k being the number of the next line. -/
def invalidLinesFrom (k : Nat) : List String → List Nat
  | [] => []
  | l :: rest =>
    if lineValid l then invalidLinesFrom (k + 1) rest
    else k :: invalidLinesFrom (k + 1) rest

/-- The invalidLines array the route builds. -/
def invalidLines (lines : List String) : List Nat := invalidLinesFrom 1 lines

/-- data.split on the newline character. -/
def linesOf (data : String) : List String :=
  (splitChar (Char.ofNat 10) data.toList).map String.mk

/-- The upload route's reply: 400 with the invalid line numbers, or 200
with the stored filename as the handle. -/
inductive UploadResponse where
  | rejected (invalid : List Nat)
  | accepted (filename : String)
  deriving DecidableEq

/-- The /upload route's content validation: reject when invalidLines is
non-empty, else accept, returning the stored filename. -/
def uploadValidate (data filename : String) : UploadResponse :=
  if 0 < (invalidLines (linesOf data)).length then
    UploadResponse.rejected (invalidLines (linesOf data))
  else UploadResponse.accepted filename

theorem invalidLinesFrom_mem (ls : List String) :
    ∀ (k n : Nat), n ∈ invalidLinesFrom k ls ↔
      ∃ i, ∃ h : i < ls.length, n = k + i ∧ lineValid (ls.get ⟨i, h⟩) = false := by
  induction ls with
  | nil => intro k n; simp [invalidLinesFrom]
  | cons l rest ih =>
    intro k n
    by_cases hv : lineValid l
    · rw [invalidLinesFrom, if_pos hv, ih (k + 1)]
      constructor
      · rintro ⟨i, h, hn, hval⟩
        exact ⟨i + 1, by simpa using h, by omega, hval⟩
      · rintro ⟨i, h, hn, hval⟩
        cases i with
        | zero => rw [List.get] at hval; rw [hval] at hv; simp at hv
        | succ i =>
          exact ⟨i, by simpa using h, by omega, hval⟩
    · rw [invalidLinesFrom, if_neg hv, List.mem_cons, ih (k + 1)]
      constructor
      · rintro (hn | ⟨i, h, hn, hval⟩)
        · exact ⟨0, by simp, by omega, by simpa using hv⟩
        · exact ⟨i + 1, by simpa using h, by omega, hval⟩
      · rintro ⟨i, h, hn, hval⟩
        cases i with
        | zero => exact Or.inl (by omega)
        | succ i =>
          exact Or.inr ⟨i, by simpa using h, by omega, hval⟩

theorem invalidLinesFrom_eq_nil (ls : List String) :
    ∀ k : Nat, invalidLinesFrom k ls = [] ↔ ∀ l ∈ ls, lineValid l = true := by
  induction ls with
  | nil => intro k; simp [invalidLinesFrom]
  | cons l rest ih =>
    intro k
    by_cases hv : lineValid l <;>
      simp [invalidLinesFrom, hv, ih (k + 1)]

/-- Claim C8: the upload is rejected with the structured list of exactly
the 1-based numbers of the invalid lines if and only if some line fails
the expected shape, and accepted with the stored filename if and only
if every line passes. -/
theorem uploadValidate_rejects_iff (data filename : String) :
    (uploadValidate data filename = UploadResponse.accepted filename ↔
        ∀ l ∈ linesOf data, lineValid l = true) ∧
      (uploadValidate data filename =
          UploadResponse.rejected (invalidLines (linesOf data)) ↔
        ∃ l ∈ linesOf data, lineValid l = false) ∧
      ∀ n, n ∈ invalidLines (linesOf data) ↔
        ∃ i, ∃ h : i < (linesOf data).length,
          n = i + 1 ∧ lineValid ((linesOf data).get ⟨i, h⟩) = false := by
  have hnil := invalidLinesFrom_eq_nil (linesOf data) 1
  have hmem := fun n => invalidLinesFrom_mem (linesOf data) 1 n
  refine ⟨?_, ?_, ?_⟩
  · rw [uploadValidate]
    by_cases h : 0 < (invalidLines (linesOf data)).length
    · rw [if_pos h]
      have h2 : ¬ invalidLines (linesOf data) = [] := by
        intro hz; rw [hz] at h; simp at h
      rw [invalidLines] at h2
      simp only [hnil] at h2
      constructor
      · intro hx; exact absurd hx (by simp)
      · intro hx; exact absurd hx h2
    · rw [if_neg h]
      have h2 : invalidLines (linesOf data) = [] := by
        cases hz : invalidLines (linesOf data) with
        | nil => rfl
        | cons x xs => rw [hz] at h; simp at h
      rw [invalidLines] at h2
      exact ⟨fun _ => hnil.mp h2, fun _ => rfl⟩
  · rw [uploadValidate]
    by_cases h : 0 < (invalidLines (linesOf data)).length
    · rw [if_pos h]
      obtain ⟨n, hn⟩ : ∃ n, n ∈ invalidLines (linesOf data) := by
        cases hz : invalidLines (linesOf data) with
        | nil => rw [hz] at h; simp at h
        | cons x xs => exact ⟨x, hz ▸ List.mem_cons_self x xs⟩
      obtain ⟨i, hi, _, hval⟩ := (hmem n).mp hn
      exact ⟨fun _ => ⟨(linesOf data).get ⟨i, hi⟩, List.get_mem _ _ hi, hval⟩,
        fun _ => rfl⟩
    · rw [if_neg h]
      have h2 : invalidLines (linesOf data) = [] := by
        cases hz : invalidLines (linesOf data) with
        | nil => rfl
        | cons x xs => rw [hz] at h; simp at h
      constructor
      · intro hx; exact absurd hx (by simp)
      · rintro ⟨l, hl, hval⟩
        rw [invalidLines] at h2
        rw [hnil] at h2
        rw [h2 l hl] at hval
        simp at hval
  · intro n
    rw [invalidLines, hmem n]
    constructor
    · rintro ⟨i, h, hn, hval⟩; exact ⟨i, h, by omega, hval⟩
    · rintro ⟨i, h, hn, hval⟩; exact ⟨i, h, by omega, hval⟩

theorem toList_append (s t : String) : (s ++ t).toList = s.toList ++ t.toList := by
  cases s
  cases t
  rfl

theorem splitChar_append_sep (sep : Char) (l : List Char) :
    splitChar sep (l ++ [sep]) = splitChar sep l ++ [[]] := by
  induction l with
  | nil => simp [splitChar]
  | cons c cs ih =>
    by_cases hc : c = sep
    · subst hc
      simp [splitChar, ih]
    · simp only [List.cons_append, splitChar, if_neg hc]
      simp only [List.append_eq]
      rw [ih]
      cases h : splitChar sep cs with
      | nil => exact absurd h (splitChar_ne_nil sep cs)
      | cons r rs => simp

/-- A trailing newline produces one more line, empty, at the end. -/
theorem linesOf_append_newline (s : String) :
    linesOf (s ++ "\n") = linesOf s ++ [""] := by
  rw [linesOf, toList_append]
  rw [show ("\n" : String).toList = [Char.ofNat 10] from rfl]
  rw [splitChar_append_sep]
  rw [linesOf]
  simp

theorem get_append_singleton {α : Type} :
    ∀ (xs : List α) (y : α) (h : xs.length < (xs ++ [y]).length),
      (xs ++ [y]).get ⟨xs.length, h⟩ = y := by
  intro xs
  induction xs with
  | nil => intro y h; rfl
  | cons a t ih =>
    intro y h
    exact ih y (by simpa using h)

/-- Claim C10: a file whose content ends with a newline character gains
a final empty line; that line fails the expected shape, so the upload
is rejected with that line's 1-based number in the offending-line list,
whatever the rest of the content (in particular when every credential
line is well-formed). -/
theorem upload_trailing_newline_rejected (s filename : String) :
    ∃ ns, uploadValidate (s ++ "\n") filename = UploadResponse.rejected ns ∧
      (linesOf (s ++ "\n")).length ∈ ns := by
  have hl := linesOf_append_newline s
  have hempty : lineValid "" = false := by decide
  have hmem0 : (linesOf s).length + 1 ∈ invalidLines (linesOf s ++ [""]) := by
    rw [invalidLines, invalidLinesFrom_mem]
    refine ⟨(linesOf s).length, by simp, by omega, ?_⟩
    rw [get_append_singleton]
    exact hempty
  have hmem : (linesOf s).length + 1 ∈ invalidLines (linesOf (s ++ "\n")) := by
    rw [hl]; exact hmem0
  have hlen : (linesOf (s ++ "\n")).length = (linesOf s).length + 1 := by
    rw [hl]; simp
  have hpos : 0 < (invalidLines (linesOf (s ++ "\n"))).length :=
    List.length_pos.mpr (List.ne_nil_of_mem hmem)
  refine ⟨invalidLines (linesOf (s ++ "\n")), ?_, ?_⟩
  · rw [uploadValidate, if_pos hpos]
  · rw [hlen]
    exact hmem

end MailersToolz
